import Mathlib

/-!
Verification of the MMR offchain canonicalization gadget
(`client/merkle-mountain-range/src/lib.rs` and the engine it drives).

The driver layer (`MmrClient::first_mmr_block_num`, `OffchainMmrBuilder::try_build`,
`MmrGadget::run`) is embedded from the source file. The canonicalization engine
(`offchain_mmr.rs`), the auxiliary ledger (`aux_schema.rs`) and the helper
`sp_mmr_primitives::utils::first_mmr_block_num` are repository modules that are not
present under src/; the definitions for those parts are modelled from the
specification, as indicated in their doc comments.
-/

/-- Payload bytes of an MMR node, abstracted as a natural number. -/
abbrev Bytes := Nat

/-- Modelled from the spec: the offchain key-value store together with the
AuxiliaryLedger cursor (backing modules `sc_offchain::OffchainDb` and `aux_schema`,
which are not under src/). `temp h p` is the temporary entry keyed by the fork
block hash `h` and node position `p`; `canon p` is the canonical entry keyed by
position only; `cursor` is the persisted canonicalization cursor. -/
@[ext]
structure Store where
  temp : Nat → Nat → Option Bytes
  canon : Nat → Option Bytes
  cursor : Option Nat

/-- Pointwise update of a one-argument map. -/
def upd1 (f : Nat → Option Bytes) (a : Nat) (v : Option Bytes) : Nat → Option Bytes :=
  fun x => if x = a then v else f x

/-- Pointwise update of a two-argument map. -/
def upd2 (f : Nat → Nat → Option Bytes) (a b : Nat) (v : Option Bytes) :
    Nat → Nat → Option Bytes :=
  fun x y => if x = a ∧ y = b then v else f x y

/-- Header metadata for a block: parent hash and height, as returned by the
ancestry/header metadata lookup interface. -/
structure BlockHeader where
  parent : Nat
  height : Nat
deriving DecidableEq

/-- Ancestry lookup: resolve a block hash to its header metadata, `none` when the
header cannot be resolved (e.g. pruned history). -/
abbrev Lookup := Nat → Option BlockHeader

/-- A block that became stale as a direct result of a finalization. -/
structure StaleBlock where
  hash : Nat
  height : Nat
deriving DecidableEq

/-- A finality notification: the newly finalized block (hash and height) plus the
blocks made stale by that finalization. -/
structure Notification where
  hash : Nat
  height : Nat
  stale : List StaleBlock
deriving DecidableEq

/-- Modelled from the spec: the external node-count function (§6) mapping a block
height to the list of MMR node positions introduced by the block at that height;
kept abstract because position assignment is owned by the chain's state-transition
logic. -/
abbrev PosOf := Nat → List Nat

/-- Modelled from the spec: step 2 of `canonicalize_and_prune` (`offchain_mmr.rs` is
not under src/) for a single position. If the temporary entry under the finalized
block's hash is present, it is written as the canonical entry for that position and
the temporary entry is deleted; if absent it is treated as already processed and
skipped. -/
def canonStep1 (hash p : Nat) (st : Store) : Store :=
  match st.temp hash p with
  | some v => { st with canon := upd1 st.canon p (some v), temp := upd2 st.temp hash p none }
  | none => st

/-- Modelled from the spec: step 2 of `canonicalize_and_prune` applied to each
position of a list in order. -/
def canonPositions (hash : Nat) (ps : List Nat) (st : Store) : Store :=
  ps.foldl (fun st p => canonStep1 hash p st) st

/-- Modelled from the spec: canonicalize the nodes introduced by the block with the
given hash and height (steps 1 and 2 of `canonicalize_and_prune`). -/
def canonicalizeBlock (posOf : PosOf) (hash ht : Nat) (st : Store) : Store :=
  canonPositions hash (posOf ht) st

/-- Modelled from the spec: delete the temporary entries under one fork hash for a
list of positions (step 3 of `canonicalize_and_prune`, for one stale block). -/
def prunePositions (hash : Nat) (ps : List Nat) (st : Store) : Store :=
  ps.foldl (fun st p => { st with temp := upd2 st.temp hash p none }) st

/-- Modelled from the spec: prune one stale sibling block, sweeping the positions it
could have introduced. -/
def pruneStale (posOf : PosOf) (s : StaleBlock) (st : Store) : Store :=
  prunePositions s.hash (posOf s.height) st

/-- Modelled from the spec: prune every stale sibling block of a notification. -/
def pruneStales (posOf : PosOf) (ss : List StaleBlock) (st : Store) : Store :=
  ss.foldl (fun st s => pruneStale posOf s st) st

/-- Modelled from the spec: persist the cursor to the AuxiliaryLedger. -/
def setCursor (c : Nat) (st : Store) : Store := { st with cursor := some c }

/-- Modelled from the spec: `OffchainMmr::canonicalize_and_prune` (`offchain_mmr.rs`
is not under src/). Canonicalize the nodes of the newly finalized block, prune the
stale sibling blocks, and only then persist the cursor at the finalized height. -/
def canonicalize_and_prune (posOf : PosOf) (n : Notification) (st : Store) : Store :=
  setCursor n.height (pruneStales posOf n.stale (canonicalizeBlock posOf n.hash n.height st))

/-- Modelled from the spec: the engine's effective cursor, seeded from the
AuxiliaryLedger or `first_active_height - 1` when absent. -/
def cursorVal (firstActive : Nat) (st : Store) : Nat := st.cursor.getD (firstActive - 1)

/-- Modelled from the spec: walk the ancestor chain downward from the given block
hash, collecting the blocks (hash and height) whose height is at least `lo`, in
ascending height order. Returns `none` (AncestryUnavailable) when a required
header cannot be resolved. The fuel argument bounds the recursion. -/
def walkBack (lookup : Lookup) : Nat → Nat → Nat → Option (List (Nat × Nat))
  | 0, _, _ => some []
  | fuel+1, hash, lo =>
    match lookup hash with
    | none => none
    | some hdr =>
      if hdr.height < lo then some []
      else
        match walkBack lookup fuel hdr.parent lo with
        | none => none
        | some l => some (l ++ [(hash, hdr.height)])

/-- Modelled from the spec: the per-block catch-up step (`canonicalize_and_prune`-
equivalent logic without stale information): canonicalize the block's nodes, then
advance the cursor to its height. -/
def canonStep (posOf : PosOf) (b : Nat × Nat) (st : Store) : Store :=
  setCursor b.2 (canonicalizeBlock posOf b.1 b.2 st)

/-- Modelled from the spec: apply the per-block catch-up step to a list of blocks in
the order given. -/
def canonSeq (posOf : PosOf) (bs : List (Nat × Nat)) (st : Store) : Store :=
  bs.foldl (fun st b => canonStep posOf b st) st

/-- Modelled from the spec: `OffchainMmr::canonicalize_catch_up` (`offchain_mmr.rs`
is not under src/). Walk the ancestor chain of the notification's block down to
`max(first_active_height, cursor + 1)` and apply the per-block logic in ascending
height order; on AncestryUnavailable abort without advancing the cursor. -/
def canonicalize_catch_up (lookup : Lookup) (posOf : PosOf) (firstActive : Nat)
    (n : Notification) (st : Store) : Store :=
  match walkBack lookup (n.height + 1) n.hash (max firstActive (cursorVal firstActive st + 1)) with
  | none => st
  | some blocks => canonSeq posOf blocks st

/-- Processing a notification with gap handling: catch-up followed by
`canonicalize_and_prune`, as performed at construction time by `try_build`. -/
def processNotification (lookup : Lookup) (posOf : PosOf) (firstActive : Nat)
    (n : Notification) (st : Store) : Store :=
  canonicalize_and_prune posOf n (canonicalize_catch_up lookup posOf firstActive n st)

/-- Error taxonomy of the activation detector helper. -/
inductive MmrUtilsError where
  | inconsistentState
deriving DecidableEq

/-- Modelled from the spec: `sp_mmr_primitives::utils::first_mmr_block_num` is not
under src/. Given the best finalized height `best` and the MMR leaf count, compute
the activation height (one leaf per block since activation); fails with
InconsistentState when more leaves are reported than blocks available. -/
def utils_first_mmr_block_num (best leafCount : Nat) : Except MmrUtilsError Nat :=
  if best + 1 < leafCount then Except.error MmrUtilsError.inconsistentState
  else Except.ok (best + 1 - leafCount)

/-- Embedding of `MmrClient::first_mmr_block_num` (src/client/merkle-mountain-range/
src/lib.rs lines 73-106): query the MMR leaf count at the notification's best
block; when the query succeeds, compute the activation height, returning `none`
both when the query is unsupported (pallet not detected) and when the computation
fails (the error is logged and discarded). -/
def first_mmr_block_num (leafCount : Nat → Option Nat) (best : Nat) : Option Nat :=
  match leafCount best with
  | some l => (utils_first_mmr_block_num best l).toOption
  | none => none

/-- Embedding of `OffchainMmrBuilder::try_build` (lib.rs lines 135-164): consume the
notification stream until the activation detector succeeds; then build the engine
(`OffchainMmr::new`, abstracted by the external predicate `newOk` since
`offchain_mmr.rs` is not under src/ - when it fails, return no engine at once),
perform catch-up for that notification and then canonicalize-and-prune for it.
Returns the engine's activation height, the unconsumed notifications and the
resulting store; returns no engine when the stream ends first. -/
def try_build (leafCount : Nat → Option Nat) (lookup : Lookup) (posOf : PosOf)
    (newOk : Nat → Bool) : List Notification → Store → Option Nat × List Notification × Store
  | [], st => (none, [], st)
  | n :: rest, st =>
    match first_mmr_block_num leafCount n.height with
    | some fb =>
      if newOk fb then
        (some fb, rest, canonicalize_and_prune posOf n (canonicalize_catch_up lookup posOf fb n st))
      else (none, rest, st)
    | none => try_build leafCount lookup posOf newOk rest st

/-- Embedding of the steady-state loop of `MmrGadget::run` (lib.rs lines 188-190):
each remaining notification is processed, one at a time in stream order, by
`canonicalize_and_prune` alone. -/
def runSteady (posOf : PosOf) (ns : List Notification) (st : Store) : Store :=
  ns.foldl (fun st n => canonicalize_and_prune posOf n st) st

/-- Embedding of `MmrGadget::run` (lib.rs lines 182-191): build the engine through
`try_build`; if no engine is built, stop; otherwise run the steady-state loop on
the unconsumed notifications. -/
def gadget_run (leafCount : Nat → Option Nat) (lookup : Lookup) (posOf : PosOf)
    (newOk : Nat → Bool) (ns : List Notification) (st : Store) : Store :=
  match try_build leafCount lookup posOf newOk ns st with
  | (some _, rest, st1) => runSteady posOf rest st1
  | (none, _, st1) => st1

/-- Modelled from the spec: the steady-state behavior claimed by the spec's state
machine ("await next notification, catch_up if gap, canonicalize_and_prune"),
written down for comparison with the embedded driver. -/
def steadyStepClaimed (lookup : Lookup) (posOf : PosOf) (firstActive : Nat)
    (n : Notification) (st : Store) : Store :=
  if n.height ≠ cursorVal firstActive st + 1 then
    canonicalize_and_prune posOf n (canonicalize_catch_up lookup posOf firstActive n st)
  else canonicalize_and_prune posOf n st

/-- Modelled from the spec: the steady-state loop as the spec's state machine
describes it, for comparison with the embedded `runSteady`. -/
def runSteadyClaimed (lookup : Lookup) (posOf : PosOf) (firstActive : Nat)
    (ns : List Notification) (st : Store) : Store :=
  ns.foldl (fun st n => steadyStepClaimed lookup posOf firstActive n st) st

/-- Concatenation of the stale sets of a list of notifications. -/
def allStales : List Notification → List StaleBlock
  | [] => []
  | n :: rest => n.stale ++ allStales rest

/-- Primitive store operations, used to express the write order of
`canonicalize_and_prune` as a trace. -/
inductive Op where
  | writeCanon : Nat → Bytes → Op
  | deleteTemp : Nat → Nat → Op
  | cursorWrite : Nat → Op
deriving DecidableEq

/-- Apply one primitive store operation. -/
def applyOp (st : Store) : Op → Store
  | Op.writeCanon p v => { st with canon := upd1 st.canon p (some v) }
  | Op.deleteTemp h p => { st with temp := upd2 st.temp h p none }
  | Op.cursorWrite c => { st with cursor := some c }

/-- Apply a trace of primitive store operations in order. -/
def applyOps (st : Store) (ops : List Op) : Store := ops.foldl applyOp st

/-- Whether a primitive operation writes the cursor. -/
def Op.touchesCursor : Op → Bool
  | Op.cursorWrite _ => true
  | _ => false

/-- The trace of primitive operations emitted by steps 1-2 of
`canonicalize_and_prune` for one position list. -/
def canonPositionsOps (hash : Nat) : List Nat → Store → List Op
  | [], _ => []
  | p :: ps, st =>
    match st.temp hash p with
    | some v =>
      Op.writeCanon p v :: Op.deleteTemp hash p ::
        canonPositionsOps hash ps (applyOp (applyOp st (Op.writeCanon p v)) (Op.deleteTemp hash p))
    | none => canonPositionsOps hash ps st

/-- The trace of primitive operations emitted by step 3 of
`canonicalize_and_prune` (pruning every stale block). -/
def pruneStalesOps (posOf : PosOf) : List StaleBlock → List Op
  | [] => []
  | s :: ss => (posOf s.height).map (Op.deleteTemp s.hash) ++ pruneStalesOps posOf ss

/-- The full primitive-operation trace of `canonicalize_and_prune`: canonical
writes and temporary deletions first, stale-fork deletions second, the cursor
write strictly last. -/
def capOps (posOf : PosOf) (n : Notification) (st : Store) : List Op :=
  canonPositionsOps n.hash (posOf n.height) st ++ pruneStalesOps posOf n.stale ++
    [Op.cursorWrite n.height]

/-- Engine operations, for stating cursor monotonicity across operation
sequences. -/
inductive EngineOp where
  | catchUpOp : Notification → EngineOp
  | canonPruneOp : Notification → EngineOp
deriving DecidableEq

/-- Apply one engine operation to the store. -/
def applyEngineOp (lookup : Lookup) (posOf : PosOf) (fa : Nat) (st : Store) :
    EngineOp → Store
  | EngineOp.catchUpOp n => canonicalize_catch_up lookup posOf fa n st
  | EngineOp.canonPruneOp n => canonicalize_and_prune posOf n st

/-- Apply a sequence of engine operations in order. -/
def applyEngineOps (lookup : Lookup) (posOf : PosOf) (fa : Nat)
    (ops : List EngineOp) (st : Store) : Store :=
  ops.foldl (applyEngineOp lookup posOf fa) st

/-- Validity of one engine operation at a store state: finality notifications are
delivered in order, so a canonicalize-and-prune call never targets a height below
the current cursor. -/
def opOk (fa : Nat) (st : Store) : EngineOp → Prop
  | EngineOp.catchUpOp _ => True
  | EngineOp.canonPruneOp n => cursorVal fa st ≤ n.height

/-- Validity of a sequence of engine operations: every step is valid at the state
it is applied to. -/
def ValidSeq (lookup : Lookup) (posOf : PosOf) (fa : Nat) :
    List EngineOp → Store → Prop
  | [], _ => True
  | op :: ops, st =>
    opOk fa st op ∧ ValidSeq lookup posOf fa ops (applyEngineOp lookup posOf fa st op)

/-! ## Pointwise characterization of the store operations -/

theorem option_or_some (a : Bytes) (o : Option Bytes) : Option.or (some a) o = some a := rfl

theorem option_or_none (o : Option Bytes) : Option.or none o = o := rfl

theorem canonPositions_nil (hash : Nat) (st : Store) : canonPositions hash [] st = st := rfl

theorem canonPositions_cons (hash q : Nat) (ps : List Nat) (st : Store) :
    canonPositions hash (q :: ps) st = canonPositions hash ps (canonStep1 hash q st) := rfl

theorem canonStep1_temp (hash q : Nat) (st : Store) (h p : Nat) :
    (canonStep1 hash q st).temp h p = if h = hash ∧ p = q then none else st.temp h p := by
  unfold canonStep1
  cases hv : st.temp hash q with
  | none =>
    simp only
    split_ifs with h1
    · obtain ⟨rfl, rfl⟩ := h1
      exact hv
    · rfl
  | some v => simp [upd2]

theorem canonStep1_canon (hash q : Nat) (st : Store) (p : Nat) :
    (canonStep1 hash q st).canon p =
      if p = q then Option.or (st.temp hash q) (st.canon p) else st.canon p := by
  unfold canonStep1
  cases hv : st.temp hash q with
  | none => simp [option_or_none]
  | some v => simp [upd1, option_or_some]

theorem canonStep1_cursor (hash q : Nat) (st : Store) :
    (canonStep1 hash q st).cursor = st.cursor := by
  unfold canonStep1
  cases st.temp hash q <;> rfl

theorem canonPositions_temp (hash : Nat) (ps : List Nat) (st : Store) (h p : Nat) :
    (canonPositions hash ps st).temp h p =
      if h = hash ∧ p ∈ ps then none else st.temp h p := by
  induction ps generalizing st with
  | nil => simp [canonPositions_nil]
  | cons q ps ih =>
    rw [canonPositions_cons, ih, canonStep1_temp]
    by_cases h1 : h = hash <;> by_cases h2 : p = q <;> by_cases h3 : p ∈ ps <;>
      simp [h1, h2, h3]

theorem canonPositions_canon (hash : Nat) (ps : List Nat) (st : Store) (p : Nat) :
    (canonPositions hash ps st).canon p =
      if p ∈ ps then Option.or (st.temp hash p) (st.canon p) else st.canon p := by
  induction ps generalizing st with
  | nil => simp [canonPositions_nil]
  | cons q ps ih =>
    rw [canonPositions_cons, ih]
    by_cases h2 : p = q
    · subst h2
      by_cases h3 : p ∈ ps <;>
        simp [h3, canonStep1_temp, canonStep1_canon, option_or_none]
    · by_cases h3 : p ∈ ps <;>
        simp [h2, h3, canonStep1_temp, canonStep1_canon]

theorem canonPositions_cursor (hash : Nat) (ps : List Nat) (st : Store) :
    (canonPositions hash ps st).cursor = st.cursor := by
  induction ps generalizing st with
  | nil => rfl
  | cons q ps ih => rw [canonPositions_cons, ih, canonStep1_cursor]

theorem prunePositions_nil (hash : Nat) (st : Store) : prunePositions hash [] st = st := rfl

theorem prunePositions_cons (hash q : Nat) (ps : List Nat) (st : Store) :
    prunePositions hash (q :: ps) st =
      prunePositions hash ps { st with temp := upd2 st.temp hash q none } := rfl

theorem prunePositions_temp (hash : Nat) (ps : List Nat) (st : Store) (h p : Nat) :
    (prunePositions hash ps st).temp h p =
      if h = hash ∧ p ∈ ps then none else st.temp h p := by
  induction ps generalizing st with
  | nil => simp [prunePositions_nil]
  | cons q ps ih =>
    rw [prunePositions_cons, ih]
    by_cases h1 : h = hash <;> by_cases h2 : p = q <;> by_cases h3 : p ∈ ps <;>
      simp [h1, h2, h3, upd2]

theorem prunePositions_canon (hash : Nat) (ps : List Nat) (st : Store) (p : Nat) :
    (prunePositions hash ps st).canon p = st.canon p := by
  induction ps generalizing st with
  | nil => rfl
  | cons q ps ih => rw [prunePositions_cons, ih]

theorem prunePositions_cursor (hash : Nat) (ps : List Nat) (st : Store) :
    (prunePositions hash ps st).cursor = st.cursor := by
  induction ps generalizing st with
  | nil => rfl
  | cons q ps ih => rw [prunePositions_cons, ih]

theorem pruneStales_nil (posOf : PosOf) (st : Store) : pruneStales posOf [] st = st := rfl

theorem pruneStales_cons (posOf : PosOf) (s : StaleBlock) (ss : List StaleBlock) (st : Store) :
    pruneStales posOf (s :: ss) st = pruneStales posOf ss (pruneStale posOf s st) := rfl

theorem pruneStales_temp (posOf : PosOf) (ss : List StaleBlock) (st : Store) (h p : Nat) :
    (pruneStales posOf ss st).temp h p =
      if ∃ s ∈ ss, h = s.hash ∧ p ∈ posOf s.height then none else st.temp h p := by
  induction ss generalizing st with
  | nil => simp [pruneStales_nil]
  | cons s ss ih =>
    rw [pruneStales_cons, ih]
    by_cases h1 : ∃ s' ∈ ss, h = s'.hash ∧ p ∈ posOf s'.height
    · simp [h1]
    · by_cases h2 : h = s.hash ∧ p ∈ posOf s.height <;>
        simp [h1, h2, pruneStale, prunePositions_temp]

theorem pruneStales_canon (posOf : PosOf) (ss : List StaleBlock) (st : Store) (p : Nat) :
    (pruneStales posOf ss st).canon p = st.canon p := by
  induction ss generalizing st with
  | nil => rfl
  | cons s ss ih => rw [pruneStales_cons, ih, pruneStale, prunePositions_canon]

theorem pruneStales_cursor (posOf : PosOf) (ss : List StaleBlock) (st : Store) :
    (pruneStales posOf ss st).cursor = st.cursor := by
  induction ss generalizing st with
  | nil => rfl
  | cons s ss ih => rw [pruneStales_cons, ih, pruneStale, prunePositions_cursor]

theorem cap_temp (posOf : PosOf) (n : Notification) (st : Store) (h p : Nat) :
    (canonicalize_and_prune posOf n st).temp h p =
      if (h = n.hash ∧ p ∈ posOf n.height) ∨ (∃ s ∈ n.stale, h = s.hash ∧ p ∈ posOf s.height)
      then none else st.temp h p := by
  unfold canonicalize_and_prune setCursor
  simp only [pruneStales_temp, canonicalizeBlock, canonPositions_temp]
  by_cases h1 : h = n.hash ∧ p ∈ posOf n.height <;>
    by_cases h2 : ∃ s ∈ n.stale, h = s.hash ∧ p ∈ posOf s.height <;>
    simp [h1, h2]

theorem cap_canon (posOf : PosOf) (n : Notification) (st : Store) (p : Nat) :
    (canonicalize_and_prune posOf n st).canon p =
      if p ∈ posOf n.height then Option.or (st.temp n.hash p) (st.canon p) else st.canon p := by
  unfold canonicalize_and_prune setCursor
  simp only [pruneStales_canon, canonicalizeBlock, canonPositions_canon]

theorem cap_cursor (posOf : PosOf) (n : Notification) (st : Store) :
    (canonicalize_and_prune posOf n st).cursor = some n.height := rfl

/-! ## C1: activation detector -/

/-- C1: for every best-finalized height `H` and MMR leaf count `L` reported by the
state query with `L ≤ H + 1`, the activation detector returns the activation
height `H - L + 1` (computed as `H + 1 - L` in ℕ, which equals `H - L + 1` over
ℤ); in particular `first_active(best 5, leaf count 3) = 3`. -/
theorem detector_first_active (H L : Nat) (h : L ≤ H + 1) :
    utils_first_mmr_block_num H L = Except.ok (H + 1 - L)
    ∧ first_mmr_block_num (fun _ => some L) H = some (H + 1 - L)
    ∧ ((H + 1 - L : Nat) : Int) = (H : Int) - (L : Int) + 1
    ∧ first_mmr_block_num (fun _ => some 3) 5 = some 3 := by
  have h1 : utils_first_mmr_block_num H L = Except.ok (H + 1 - L) := by
    rw [utils_first_mmr_block_num, if_neg (by omega)]
  refine ⟨h1, ?_, by omega, rfl⟩
  simp [first_mmr_block_num, h1, Except.toOption]

/-- Witness for C1 at `H = 5`, `L = 3`. -/
theorem detector_first_active_witness :
    utils_first_mmr_block_num 5 3 = Except.ok 3 :=
  (detector_first_active 5 3 (by omega)).1

/-! ## C2: idempotence of canonicalize_and_prune -/

/-- C2: for every notification and every store state, calling
`canonicalize_and_prune` twice with the same notification leaves the offchain
store in exactly the same state as calling it once. -/
theorem canonicalize_and_prune_idempotent (posOf : PosOf) (n : Notification) (st : Store) :
    canonicalize_and_prune posOf n (canonicalize_and_prune posOf n st) =
      canonicalize_and_prune posOf n st := by
  apply Store.ext
  · funext h p
    rw [cap_temp, cap_temp posOf n st]
    split_ifs with h1 <;> rfl
  · funext p
    rw [cap_canon]
    by_cases hp : p ∈ posOf n.height
    · rw [if_pos hp, cap_temp, if_pos (Or.inl ⟨rfl, hp⟩), option_or_none]
    · rw [if_neg hp]
  · rw [cap_cursor, cap_cursor]

/-! ## C5: fork pruning and the frame on untouched entries -/

/-- C5: after `canonicalize_and_prune` processes a notification, no temporary
entry remains under the hash of any stale block (given that, per the importer's
key discipline, temporaries under a stale block's hash only exist at positions
that block could have introduced), while temporary entries under any other hash
(in particular non-stale, not-yet-finalized descendants) are unchanged, and no
canonical entry outside the finalized block's own positions is written. -/
theorem fork_pruning_frame (posOf : PosOf) (n : Notification) (st : Store)
    (hWF : ∀ s ∈ n.stale, ∀ p, (st.temp s.hash p).isSome → p ∈ posOf s.height) :
    (∀ s ∈ n.stale, ∀ p, (canonicalize_and_prune posOf n st).temp s.hash p = none)
    ∧ (∀ h, h ≠ n.hash → (∀ s ∈ n.stale, h ≠ s.hash) →
        ∀ p, (canonicalize_and_prune posOf n st).temp h p = st.temp h p)
    ∧ (∀ p, p ∉ posOf n.height → (canonicalize_and_prune posOf n st).canon p = st.canon p) := by
  refine ⟨?_, ?_, ?_⟩
  · intro s hs p
    rw [cap_temp]
    by_cases hp : p ∈ posOf s.height
    · rw [if_pos (Or.inr ⟨s, hs, rfl, hp⟩)]
    · split_ifs with hc
      · rfl
      · cases hv : st.temp s.hash p with
        | none => rfl
        | some v => exact absurd (hWF s hs p (by rw [hv]; rfl)) hp
  · intro h hh hs p
    rw [cap_temp, if_neg]
    rintro (⟨h1, _⟩ | ⟨s, hsmem, h1, _⟩)
    · exact hh h1
    · exact hs s hsmem h1
  · intro p hp
    rw [cap_canon, if_neg hp]

/-- Node positions for the concrete scenario used by the C5 witness: the block at
height 1 introduces position 0, the block at height 2 introduces positions 1, 2. -/
def posOf5 : PosOf := fun ht => if ht = 1 then [0] else if ht = 2 then [1, 2] else []

/-- Concrete notification for the C5 witness: finalize the block with hash 11 at
height 1; the competing block with hash 21 at height 1 becomes stale. -/
def n5 : Notification := ⟨11, 1, [⟨21, 1⟩]⟩

/-- Concrete store for the C5 witness: temporaries for the finalized block (hash
11), the stale sibling (hash 21) and a not-yet-finalized descendant (hash 12). -/
def st5 : Store :=
  ⟨fun h p =>
      if h = 11 ∧ p = 0 then some 5
      else if h = 21 ∧ p = 0 then some 6
      else if h = 12 ∧ p = 1 then some 7 else none,
    fun _ => none, none⟩

/-- Witness for C5: in the concrete scenario, the stale sibling's temporary entry
is gone while the descendant's temporary entry is untouched. -/
theorem fork_pruning_frame_witness :
    (canonicalize_and_prune posOf5 n5 st5).temp 21 0 = none
    ∧ (canonicalize_and_prune posOf5 n5 st5).temp 12 1 = some 7 := by
  have hWF : ∀ s ∈ n5.stale, ∀ p, (st5.temp s.hash p).isSome → p ∈ posOf5 s.height := by
    intro s hs p hp
    simp only [n5, List.mem_singleton] at hs
    subst hs
    by_cases hp0 : p = 0
    · simp [posOf5, hp0]
    · exfalso
      simp [st5, hp0] at hp
  refine ⟨(fork_pruning_frame posOf5 n5 st5 hWF).1 ⟨21, 1⟩ (by simp [n5]) 0, ?_⟩
  rw [(fork_pruning_frame posOf5 n5 st5 hWF).2.1 12 (by simp [n5]) (by simp [n5]) 1]
  simp [st5]

/-! ## C3: write order and cursor monotonicity -/

theorem applyOps_append (st : Store) (l1 l2 : List Op) :
    applyOps st (l1 ++ l2) = applyOps (applyOps st l1) l2 := by
  unfold applyOps
  rw [List.foldl_append]

theorem canonPositionsOps_sound (hash : Nat) (ps : List Nat) (st : Store) :
    applyOps st (canonPositionsOps hash ps st) = canonPositions hash ps st := by
  induction ps generalizing st with
  | nil => rfl
  | cons q ps ih =>
    rw [canonPositions_cons]
    unfold canonPositionsOps canonStep1
    cases hv : st.temp hash q with
    | none => exact ih st
    | some v =>
      simp only [applyOps, List.foldl_cons]
      exact ih _

theorem canonPositionsOps_noCursor (hash : Nat) (ps : List Nat) (st : Store) :
    ∀ op ∈ canonPositionsOps hash ps st, op.touchesCursor = false := by
  induction ps generalizing st with
  | nil => intro op hop; cases hop
  | cons q ps ih =>
    intro op hop
    unfold canonPositionsOps at hop
    cases hv : st.temp hash q with
    | none =>
      rw [hv] at hop
      exact ih st op hop
    | some v =>
      rw [hv] at hop
      rcases List.mem_cons.mp hop with rfl | hop'
      · rfl
      rcases List.mem_cons.mp hop' with rfl | hop''
      · rfl
      exact ih _ op hop''

theorem applyOps_map_deleteTemp (hash : Nat) (ps : List Nat) (st : Store) :
    applyOps st ((ps.map (Op.deleteTemp hash))) = prunePositions hash ps st := by
  induction ps generalizing st with
  | nil => rfl
  | cons q ps ih =>
    simp only [List.map_cons, applyOps, List.foldl_cons]
    exact ih _

theorem pruneStalesOps_sound (posOf : PosOf) (ss : List StaleBlock) (st : Store) :
    applyOps st (pruneStalesOps posOf ss) = pruneStales posOf ss st := by
  induction ss generalizing st with
  | nil => rfl
  | cons s ss ih =>
    rw [pruneStales_cons]
    unfold pruneStalesOps
    rw [applyOps_append, applyOps_map_deleteTemp]
    exact ih _

theorem pruneStalesOps_noCursor (posOf : PosOf) (ss : List StaleBlock) :
    ∀ op ∈ pruneStalesOps posOf ss, op.touchesCursor = false := by
  induction ss with
  | nil => intro op hop; cases hop
  | cons s ss ih =>
    intro op hop
    unfold pruneStalesOps at hop
    rw [List.mem_append] at hop
    rcases hop with hop | hop
    · obtain ⟨p, _, rfl⟩ := List.mem_map.mp hop
      rfl
    · exact ih op hop

theorem capOps_sound (posOf : PosOf) (n : Notification) (st : Store) :
    applyOps st (capOps posOf n st) = canonicalize_and_prune posOf n st := by
  unfold capOps
  rw [applyOps_append, applyOps_append, canonPositionsOps_sound, pruneStalesOps_sound]
  rfl

theorem applyOps_cursor_of_noCursor (st : Store) (ops : List Op)
    (h : ∀ op ∈ ops, op.touchesCursor = false) : (applyOps st ops).cursor = st.cursor := by
  induction ops generalizing st with
  | nil => rfl
  | cons op ops ih =>
    have h1 : (applyOp st op).cursor = st.cursor := by
      cases op with
      | writeCanon p v => rfl
      | deleteTemp a b => rfl
      | cursorWrite c => exact absurd (h _ (List.mem_cons_self _ _)) (by simp [Op.touchesCursor])
    have h2 : applyOps st (op :: ops) = applyOps (applyOp st op) ops := rfl
    rw [h2, ih _ fun op hop => h op (List.mem_cons_of_mem _ hop), h1]

theorem take_of_concat_lt (l : List Op) (x : Op) (k : Nat) (hk : k < (l ++ [x]).length) :
    (l ++ [x]).take k = l.take k := by
  have hk' : k ≤ l.length := by
    simp only [List.length_append, List.length_singleton] at hk
    omega
  rw [List.take_append_of_le_length hk']

theorem walkBack_heights (lookup : Lookup) (fuel hash lo : Nat) (bs : List (Nat × Nat))
    (h : walkBack lookup fuel hash lo = some bs) : ∀ b ∈ bs, lo ≤ b.2 := by
  induction fuel generalizing hash bs with
  | zero =>
    unfold walkBack at h
    cases h
    intro b hb
    cases hb
  | succ fuel ih =>
    unfold walkBack at h
    split at h
    · exact Option.noConfusion h
    next hdr hl =>
      split at h
      next hh =>
        cases h
        intro b hb
        cases hb
      next hh =>
        split at h
        · exact Option.noConfusion h
        next l hw =>
          cases h
          intro b hb
          rw [List.mem_append] at hb
          rcases hb with hb | hb
          · exact ih _ _ hw b hb
          · rw [List.mem_singleton] at hb
            subst hb
            exact Nat.le_of_not_lt hh

theorem canonStep_cursor (posOf : PosOf) (b : Nat × Nat) (st : Store) :
    (canonStep posOf b st).cursor = some b.2 := rfl

theorem canonSeq_cursor_cases (posOf : PosOf) (bs : List (Nat × Nat)) (st : Store) :
    (canonSeq posOf bs st).cursor = st.cursor
    ∨ ∃ b ∈ bs, (canonSeq posOf bs st).cursor = some b.2 := by
  induction bs generalizing st with
  | nil => exact Or.inl rfl
  | cons b bs ih =>
    have : canonSeq posOf (b :: bs) st = canonSeq posOf bs (canonStep posOf b st) := rfl
    rw [this]
    rcases ih (canonStep posOf b st) with h | ⟨b', hb', h⟩
    · exact Or.inr ⟨b, List.mem_cons_self _ _, by rw [h, canonStep_cursor]⟩
    · exact Or.inr ⟨b', List.mem_cons_of_mem _ hb', h⟩

theorem catch_up_cursor_mono (lookup : Lookup) (posOf : PosOf) (fa : Nat)
    (n : Notification) (st : Store) :
    cursorVal fa st ≤ cursorVal fa (canonicalize_catch_up lookup posOf fa n st) := by
  unfold canonicalize_catch_up
  cases hw : walkBack lookup (n.height + 1) n.hash (max fa (cursorVal fa st + 1)) with
  | none => exact Nat.le_refl _
  | some bs =>
    show cursorVal fa st ≤ cursorVal fa (canonSeq posOf bs st)
    rcases canonSeq_cursor_cases posOf bs st with h | ⟨b, hb, h⟩
    · unfold cursorVal
      rw [h]
    · have hlo : max fa (cursorVal fa st + 1) ≤ b.2 := walkBack_heights _ _ _ _ _ hw b hb
      unfold cursorVal at hlo ⊢
      rw [h, Option.getD_some]
      omega

theorem engine_op_cursor_mono (lookup : Lookup) (posOf : PosOf) (fa : Nat)
    (st : Store) (op : EngineOp) (hok : opOk fa st op) :
    cursorVal fa st ≤ cursorVal fa (applyEngineOp lookup posOf fa st op) := by
  cases op with
  | catchUpOp n => exact catch_up_cursor_mono lookup posOf fa n st
  | canonPruneOp n =>
    have h1 : (canonicalize_and_prune posOf n st).cursor = some n.height := cap_cursor posOf n st
    show cursorVal fa st ≤ cursorVal fa (canonicalize_and_prune posOf n st)
    unfold cursorVal
    rw [h1, Option.getD_some]
    exact hok

theorem engine_ops_cursor_mono (lookup : Lookup) (posOf : PosOf) (fa : Nat)
    (ops : List EngineOp) (st : Store) (hv : ValidSeq lookup posOf fa ops st) :
    cursorVal fa st ≤ cursorVal fa (applyEngineOps lookup posOf fa ops st) := by
  induction ops generalizing st with
  | nil => exact Nat.le_refl _
  | cons op ops ih =>
    obtain ⟨hok, hv'⟩ := hv
    exact Nat.le_trans (engine_op_cursor_mono lookup posOf fa st op hok) (ih _ hv')

theorem valid_seq_append (lookup : Lookup) (posOf : PosOf) (fa : Nat)
    (pre suf : List EngineOp) (st : Store) (hv : ValidSeq lookup posOf fa (pre ++ suf) st) :
    ValidSeq lookup posOf fa suf (applyEngineOps lookup posOf fa pre st) := by
  induction pre generalizing st with
  | nil => exact hv
  | cons op pre ih => exact ih _ hv.2

theorem applyEngineOps_append (lookup : Lookup) (posOf : PosOf) (fa : Nat)
    (pre suf : List EngineOp) (st : Store) :
    applyEngineOps lookup posOf fa (pre ++ suf) st =
      applyEngineOps lookup posOf fa suf (applyEngineOps lookup posOf fa pre st) := by
  unfold applyEngineOps
  rw [List.foldl_append]

/-- Trivial ancestry lookup used by concrete witnesses. -/
def lk0 : Lookup := fun _ => none

/-- C3: across every valid sequence of engine operations (finality notifications
delivered in order) the persisted canonicalization cursor never decreases - the
cursor value at any point of the sequence is at most the final cursor value - and
within the processing of one finalized block the primitive-operation trace of
`canonicalize_and_prune` writes the canonical entries and deletes the temporary
entries first and persists the cursor only as the very last operation: every
proper initial segment of the trace leaves the cursor unchanged, the full trace
realizes `canonicalize_and_prune`, and the completed call sets the cursor to the
finalized height. -/
theorem cursor_write_order_and_monotone (lookup : Lookup) (posOf : PosOf) (fa : Nat)
    (n : Notification) (st : Store) (ops : List EngineOp) (st0 : Store) :
    (∀ k, k < (capOps posOf n st).length →
      (applyOps st ((capOps posOf n st).take k)).cursor = st.cursor)
    ∧ applyOps st (capOps posOf n st) = canonicalize_and_prune posOf n st
    ∧ (canonicalize_and_prune posOf n st).cursor = some n.height
    ∧ (ValidSeq lookup posOf fa ops st0 → ∀ pre suf, ops = pre ++ suf →
        cursorVal fa (applyEngineOps lookup posOf fa pre st0) ≤
          cursorVal fa (applyEngineOps lookup posOf fa ops st0)) := by
  refine ⟨?_, capOps_sound posOf n st, cap_cursor posOf n st, ?_⟩
  · intro k hk
    unfold capOps at hk ⊢
    rw [take_of_concat_lt _ _ _ hk]
    apply applyOps_cursor_of_noCursor
    intro op hop
    have hsub := List.take_subset k
      (canonPositionsOps n.hash (posOf n.height) st ++ pruneStalesOps posOf n.stale)
    rcases List.mem_append.mp (hsub hop) with hmem | hmem
    · exact canonPositionsOps_noCursor _ _ _ op hmem
    · exact pruneStalesOps_noCursor _ _ op hmem
  · intro hv pre suf heq
    subst heq
    rw [applyEngineOps_append]
    exact engine_ops_cursor_mono lookup posOf fa suf _
      (valid_seq_append lookup posOf fa pre suf st0 hv)

/-- Witness for C3: a proper initial segment of the concrete trace leaves the
cursor unchanged, and the cursor does not decrease over a concrete valid
operation sequence. -/
theorem cursor_write_order_and_monotone_witness :
    (applyOps st5 ((capOps posOf5 n5 st5).take 2)).cursor = st5.cursor
    ∧ cursorVal 1 (applyEngineOps lk0 posOf5 1 [] st5) ≤
        cursorVal 1 (applyEngineOps lk0 posOf5 1 [EngineOp.canonPruneOp n5] st5) := by
  have h := cursor_write_order_and_monotone lk0 posOf5 1 n5 st5 [EngineOp.canonPruneOp n5] st5
  refine ⟨h.1 2 (by decide), h.2.2.2 ⟨?_, trivial⟩ [] [EngineOp.canonPruneOp n5] rfl⟩
  show cursorVal 1 st5 ≤ n5.height
  decide

/-! ## Driver layer: try_build and gadget_run -/

theorem try_build_cons_none (leafCount : Nat → Option Nat) (lookup : Lookup) (posOf : PosOf)
    (newOk : Nat → Bool) (n : Notification) (ns : List Notification) (st : Store)
    (h : first_mmr_block_num leafCount n.height = none) :
    try_build leafCount lookup posOf newOk (n :: ns) st =
      try_build leafCount lookup posOf newOk ns st := by
  conv_lhs => rw [try_build]
  rw [h]

theorem try_build_cons_detected (leafCount : Nat → Option Nat) (lookup : Lookup) (posOf : PosOf)
    (newOk : Nat → Bool) (n : Notification) (ns : List Notification) (st : Store) (fb : Nat)
    (h : first_mmr_block_num leafCount n.height = some fb) :
    try_build leafCount lookup posOf newOk (n :: ns) st =
      if newOk fb then
        (some fb, ns,
          canonicalize_and_prune posOf n (canonicalize_catch_up lookup posOf fb n st))
      else (none, ns, st) := by
  conv_lhs => rw [try_build]
  rw [h]

theorem try_build_all_fail (leafCount : Nat → Option Nat) (lookup : Lookup) (posOf : PosOf)
    (newOk : Nat → Bool) (ns : List Notification) (st : Store)
    (h : ∀ n ∈ ns, first_mmr_block_num leafCount n.height = none) :
    try_build leafCount lookup posOf newOk ns st = (none, [], st) := by
  induction ns with
  | nil => rfl
  | cons n rest ih =>
    rw [try_build_cons_none _ _ _ _ _ _ _ (h n (List.mem_cons_self _ _))]
    exact ih fun n hn => h n (List.mem_cons_of_mem _ hn)

theorem try_build_skip (leafCount : Nat → Option Nat) (lookup : Lookup) (posOf : PosOf)
    (newOk : Nat → Bool) (pre : List Notification) (n0 : Notification)
    (post : List Notification) (st : Store)
    (hpre : ∀ n ∈ pre, first_mmr_block_num leafCount n.height = none) :
    try_build leafCount lookup posOf newOk (pre ++ n0 :: post) st =
      try_build leafCount lookup posOf newOk (n0 :: post) st := by
  induction pre with
  | nil => rfl
  | cons n pre ih =>
    rw [List.cons_append,
      try_build_cons_none _ _ _ _ _ _ _ (hpre n (List.mem_cons_self _ _))]
    exact ih fun n hn => hpre n (List.mem_cons_of_mem _ hn)

theorem try_build_found (leafCount : Nat → Option Nat) (lookup : Lookup) (posOf : PosOf)
    (newOk : Nat → Bool) (pre : List Notification) (n0 : Notification)
    (post : List Notification) (st : Store) (fb : Nat)
    (hpre : ∀ n ∈ pre, first_mmr_block_num leafCount n.height = none)
    (hdet : first_mmr_block_num leafCount n0.height = some fb)
    (hnew : newOk fb = true) :
    try_build leafCount lookup posOf newOk (pre ++ n0 :: post) st =
      (some fb, post,
        canonicalize_and_prune posOf n0 (canonicalize_catch_up lookup posOf fb n0 st)) := by
  rw [try_build_skip _ _ _ _ _ _ _ _ hpre,
    try_build_cons_detected _ _ _ _ _ _ _ _ hdet, if_pos hnew]

theorem try_build_new_failed (leafCount : Nat → Option Nat) (lookup : Lookup) (posOf : PosOf)
    (newOk : Nat → Bool) (pre : List Notification) (n0 : Notification)
    (post : List Notification) (st : Store) (fb : Nat)
    (hpre : ∀ n ∈ pre, first_mmr_block_num leafCount n.height = none)
    (hdet : first_mmr_block_num leafCount n0.height = some fb)
    (hnew : newOk fb = false) :
    try_build leafCount lookup posOf newOk (pre ++ n0 :: post) st = (none, post, st) := by
  rw [try_build_skip _ _ _ _ _ _ _ _ hpre,
    try_build_cons_detected _ _ _ _ _ _ _ _ hdet, if_neg (by simp [hnew])]

/-! ## C7: catch-up precedes canonicalize-and-prune at construction -/

/-- C7: when the engine is first built - on the first notification of the stream
for which activation detection succeeds (all earlier ones failing) and engine
construction succeeds - `try_build` performs catch-up for that notification first
and the ordinary canonicalize-and-prune for the same notification second, and
hands the remaining stream back. -/
theorem build_catch_up_then_prune (leafCount : Nat → Option Nat) (lookup : Lookup)
    (posOf : PosOf) (newOk : Nat → Bool) (pre : List Notification) (n0 : Notification)
    (post : List Notification) (st : Store) (fb : Nat)
    (hpre : ∀ n ∈ pre, first_mmr_block_num leafCount n.height = none)
    (hdet : first_mmr_block_num leafCount n0.height = some fb)
    (hnew : newOk fb = true) :
    try_build leafCount lookup posOf newOk (pre ++ n0 :: post) st =
      (some fb, post,
        canonicalize_and_prune posOf n0 (canonicalize_catch_up lookup posOf fb n0 st)) :=
  try_build_found leafCount lookup posOf newOk pre n0 post st fb hpre hdet hnew

/-- Concrete leaf-count query for driver witnesses: the MMR is reported only at
best height 3, with 2 leaves (so activation height 2). -/
def leafCount6 : Nat → Option Nat := fun best => if best = 3 then some 2 else none

/-- Concrete ancestry lookup for driver scenarios: chain of hashes 10, 11, 12, 13
at heights 0, 1, 2, 3. -/
def lk6 : Lookup := fun h =>
  if h = 11 then some ⟨10, 1⟩
  else if h = 12 then some ⟨11, 2⟩
  else if h = 13 then some ⟨12, 3⟩
  else if h = 10 then some ⟨10, 0⟩
  else none

/-- Concrete node positions for driver scenarios: height 2 introduces position 0,
height 3 introduces position 1. -/
def posOf6 : PosOf := fun ht => if ht = 2 then [0] else if ht = 3 then [1] else []

/-- Concrete store for driver scenarios: temporaries for the blocks at heights 2
and 3, cursor at height 1. -/
def st6 : Store :=
  ⟨fun h p => if h = 12 ∧ p = 0 then some 5 else if h = 13 ∧ p = 1 then some 7 else none,
    fun _ => none, some 1⟩

/-- Concrete finality notification for driver scenarios: finalize the block with
hash 13 at height 3, no stale siblings. -/
def n6 : Notification := ⟨13, 3, []⟩

/-- A notification on which the detector fails under `leafCount6`. -/
def nBad : Notification := ⟨99, 9, []⟩

/-- Engine construction that always succeeds. -/
def okAll : Nat → Bool := fun _ => true

/-- Engine construction that always fails. -/
def okNone : Nat → Bool := fun _ => false

/-- Witness for C7 at the concrete driver scenario. -/
theorem build_catch_up_then_prune_witness :
    try_build leafCount6 lk6 posOf6 okAll ([nBad] ++ n6 :: []) st6 =
      (some 2, [],
        canonicalize_and_prune posOf6 n6 (canonicalize_catch_up lk6 posOf6 2 n6 st6)) := by
  apply build_catch_up_then_prune
  · intro n hn
    rw [List.mem_singleton] at hn
    subst hn
    rfl
  · rfl
  · rfl

/-! ## C8: stream closing before activation -/

/-- C8: if the finality notification stream ends before MMR activation is ever
detected, `try_build` returns no engine, and the gadget terminates returning the
store untouched (no canonicalization is performed; the embedded total function
returns normally, it does not abort). -/
theorem stream_closed_no_engine (leafCount : Nat → Option Nat) (lookup : Lookup)
    (posOf : PosOf) (newOk : Nat → Bool) (ns : List Notification) (st : Store)
    (h : ∀ n ∈ ns, first_mmr_block_num leafCount n.height = none) :
    try_build leafCount lookup posOf newOk ns st = (none, [], st)
    ∧ gadget_run leafCount lookup posOf newOk ns st = st := by
  have h1 := try_build_all_fail leafCount lookup posOf newOk ns st h
  refine ⟨h1, ?_⟩
  unfold gadget_run
  rw [h1]

/-- Witness for C8 at the concrete driver scenario. -/
theorem stream_closed_no_engine_witness :
    gadget_run leafCount6 lk6 posOf6 okAll [nBad] st6 = st6 :=
  (stream_closed_no_engine leafCount6 lk6 posOf6 okAll [nBad] st6
    (by
      intro n hn
      rw [List.mem_singleton] at hn
      subst hn
      rfl)).2

/-! ## C9: inconsistent detector state -/

/-- C9: when the state query reports more leaves than blocks available
(`L > H + 1`), the detector fails with InconsistentState, the wrapped client
query returns no activation height, and on a stream whose notifications all
report such an inconsistent state the engine never starts: `try_build` returns
no engine and the gadget returns with the store untouched (no block is
canonicalized, and the embedded total function returns normally rather than
aborting). -/
theorem inconsistent_state_no_start (H L : Nat) (leafCount : Nat → Option Nat)
    (lookup : Lookup) (posOf : PosOf) (newOk : Nat → Bool) (ns : List Notification)
    (st : Store) (hL : H + 1 < L) (hq : leafCount H = some L)
    (hall : ∀ n ∈ ns, ∃ L', leafCount n.height = some L' ∧ n.height + 1 < L') :
    utils_first_mmr_block_num H L = Except.error MmrUtilsError.inconsistentState
    ∧ first_mmr_block_num leafCount H = none
    ∧ try_build leafCount lookup posOf newOk ns st = (none, [], st)
    ∧ gadget_run leafCount lookup posOf newOk ns st = st := by
  have hutils : utils_first_mmr_block_num H L = Except.error MmrUtilsError.inconsistentState := by
    rw [utils_first_mmr_block_num, if_pos hL]
  have hfail : ∀ n ∈ ns, first_mmr_block_num leafCount n.height = none := by
    intro n hn
    obtain ⟨L', hq', hL'⟩ := hall n hn
    have : utils_first_mmr_block_num n.height L' =
        Except.error MmrUtilsError.inconsistentState := by
      rw [utils_first_mmr_block_num, if_pos hL']
    simp [first_mmr_block_num, hq', this, Except.toOption]
  have h1 := try_build_all_fail leafCount lookup posOf newOk ns st hfail
  refine ⟨hutils, ?_, h1, ?_⟩
  · simp [first_mmr_block_num, hq, hutils, Except.toOption]
  · unfold gadget_run
    rw [h1]

/-- Leaf-count query reporting an impossible leaf count everywhere. -/
def leafCount9 : Nat → Option Nat := fun _ => some 5

/-- Witness for C9: the spec's concrete instance `first_active(best 2,
leaf count 5)` fails with InconsistentState, and a concrete gadget run on an
inconsistent stream leaves the store untouched. -/
theorem inconsistent_state_no_start_witness :
    utils_first_mmr_block_num 2 5 = Except.error MmrUtilsError.inconsistentState
    ∧ gadget_run leafCount9 lk6 posOf6 okAll [n6] st6 = st6 := by
  have h := inconsistent_state_no_start 2 5 leafCount9 lk6 posOf6 okAll [n6] st6
    (by omega) rfl
    (by
      intro n hn
      rw [List.mem_singleton] at hn
      subst hn
      exact ⟨5, rfl, by decide⟩)
  exact ⟨h.1, h.2.2.2⟩

/-! ## C10: engine construction failure -/

/-- C10: if, on the first notification for which activation detection succeeds,
construction of the engine itself fails, `try_build` returns no engine at once:
the remaining notifications are handed back unprocessed regardless of their
content (no retry), the store is unchanged (no catch-up and no canonicalization
were performed for that notification), and the gadget run stops there. -/
theorem new_failure_no_engine (leafCount : Nat → Option Nat) (lookup : Lookup)
    (posOf : PosOf) (newOk : Nat → Bool) (pre : List Notification) (n0 : Notification)
    (post : List Notification) (st : Store) (fb : Nat)
    (hpre : ∀ n ∈ pre, first_mmr_block_num leafCount n.height = none)
    (hdet : first_mmr_block_num leafCount n0.height = some fb)
    (hnew : newOk fb = false) :
    try_build leafCount lookup posOf newOk (pre ++ n0 :: post) st = (none, post, st)
    ∧ gadget_run leafCount lookup posOf newOk (pre ++ n0 :: post) st = st := by
  have h1 := try_build_new_failed leafCount lookup posOf newOk pre n0 post st fb
    hpre hdet hnew
  refine ⟨h1, ?_⟩
  unfold gadget_run
  rw [h1]

/-- Witness for C10 at the concrete driver scenario: construction fails, the
store is untouched even though later notifications would allow detection. -/
theorem new_failure_no_engine_witness :
    try_build leafCount6 lk6 posOf6 okNone ([nBad] ++ n6 :: [n6]) st6 = (none, [n6], st6)
    ∧ gadget_run leafCount6 lk6 posOf6 okNone ([nBad] ++ n6 :: [n6]) st6 = st6 :=
  new_failure_no_engine leafCount6 lk6 posOf6 okNone [nBad] n6 [n6] st6 2
    (by
      intro n hn
      rw [List.mem_singleton] at hn
      subst hn
      rfl)
    rfl rfl

/-! ## C6: steady-state behavior of the driver -/

/-- Counterexample to C6 as stated: the embedded steady-state loop of
`MmrGadget::run` (lib.rs lines 188-190) applies only `canonicalize_and_prune` to
each notification; on a notification that is not the immediate successor of the
cursor it performs no catch-up, so it disagrees with the spec's claimed
steady-state step (catch-up on gap, then canonicalize-and-prune) on a concrete
store: the gap block at height 2 is left uncanonicalized by the driver. -/
theorem steady_no_catch_up_counterexample :
    runSteady posOf6 [n6] st6 ≠ runSteadyClaimed lk6 posOf6 2 [n6] st6 := by
  intro hEq
  have h : (runSteady posOf6 [n6] st6).canon 0 =
      (runSteadyClaimed lk6 posOf6 2 [n6] st6).canon 0 := by rw [hEq]
  have h1 : (runSteady posOf6 [n6] st6).canon 0 = none := by decide
  have h2 : (runSteadyClaimed lk6 posOf6 2 [n6] st6).canon 0 = some 5 := by decide
  rw [h1, h2] at h
  exact Option.noConfusion h

/-- C6 (amended): in the steady state the driver processes finality notifications
one at a time in stream order, performing only `canonicalize_and_prune` for each;
catch-up is performed exactly once, at construction time inside `try_build`, not
in the steady loop. Concretely, the gadget run decomposes into the construction
step (catch-up then canonicalize-and-prune for the detection notification)
followed by a canonicalize-and-prune fold over the remaining stream, and that
fold consumes the stream one notification at a time in order. -/
theorem steady_state_processing (leafCount : Nat → Option Nat) (lookup : Lookup)
    (posOf : PosOf) (newOk : Nat → Bool) (pre : List Notification) (n0 : Notification)
    (post : List Notification) (st : Store) (fb : Nat)
    (hpre : ∀ n ∈ pre, first_mmr_block_num leafCount n.height = none)
    (hdet : first_mmr_block_num leafCount n0.height = some fb)
    (hnew : newOk fb = true) :
    gadget_run leafCount lookup posOf newOk (pre ++ n0 :: post) st =
      runSteady posOf post (processNotification lookup posOf fb n0 st)
    ∧ ∀ (qs : List Notification) (q : Notification) (st' : Store),
        runSteady posOf (qs ++ [q]) st' =
          canonicalize_and_prune posOf q (runSteady posOf qs st') := by
  constructor
  · unfold gadget_run
    rw [try_build_found leafCount lookup posOf newOk pre n0 post st fb hpre hdet hnew]
    rfl
  · intro qs q st'
    unfold runSteady
    rw [List.foldl_append]
    rfl

/-- Witness for C6 (amended) at the concrete driver scenario. -/
theorem steady_state_processing_witness :
    gadget_run leafCount6 lk6 posOf6 okAll ([nBad] ++ n6 :: []) st6 =
      runSteady posOf6 [] (processNotification lk6 posOf6 2 n6 st6) :=
  (steady_state_processing leafCount6 lk6 posOf6 okAll [nBad] n6 [] st6 2
    (by
      intro n hn
      rw [List.mem_singleton] at hn
      subst hn
      rfl)
    rfl rfl).1

/-! ## C4: catch-up equivalence - infrastructure -/

theorem foldl_congr_mem {α β : Type} (l : List α) (f g : β → α → β) (a : β)
    (h : ∀ x ∈ l, ∀ acc, f acc x = g acc x) : l.foldl f a = l.foldl g a := by
  induction l generalizing a with
  | nil => rfl
  | cons x l ih =>
    rw [List.foldl_cons, List.foldl_cons, h x (List.mem_cons_self _ _) a]
    exact ih _ fun y hy acc => h y (List.mem_cons_of_mem _ hy) acc

theorem exists_mem_append {α : Type} {P : α → Prop} (l1 l2 : List α) :
    (∃ s ∈ l1 ++ l2, P s) ↔ (∃ s ∈ l1, P s) ∨ (∃ s ∈ l2, P s) := by
  constructor
  · rintro ⟨s, hs, hP⟩
    rcases List.mem_append.mp hs with h | h
    · exact Or.inl ⟨s, h, hP⟩
    · exact Or.inr ⟨s, h, hP⟩
  · rintro (⟨s, hs, hP⟩ | ⟨s, hs, hP⟩)
    · exact ⟨s, List.mem_append.mpr (Or.inl hs), hP⟩
    · exact ⟨s, List.mem_append.mpr (Or.inr hs), hP⟩

theorem ite_ite_none {c1 c2 : Prop} [Decidable c1] [Decidable c2] (x : Option Bytes) :
    (if c1 then none else if c2 then none else x) = if c1 ∨ c2 then none else x := by
  by_cases h1 : c1 <;> by_cases h2 : c2 <;> simp [h1, h2]

theorem canonStep_temp (posOf : PosOf) (b : Nat × Nat) (st : Store) (h p : Nat) :
    (canonStep posOf b st).temp h p =
      if h = b.1 ∧ p ∈ posOf b.2 then none else st.temp h p := by
  show (canonPositions b.1 (posOf b.2) st).temp h p = _
  exact canonPositions_temp _ _ _ _ _

theorem canonStep_canon (posOf : PosOf) (b : Nat × Nat) (st : Store) (p : Nat) :
    (canonStep posOf b st).canon p =
      if p ∈ posOf b.2 then Option.or (st.temp b.1 p) (st.canon p) else st.canon p := by
  show (canonPositions b.1 (posOf b.2) st).canon p = _
  exact canonPositions_canon _ _ _ _

theorem canonSeq_cons (posOf : PosOf) (b : Nat × Nat) (bs : List (Nat × Nat)) (st : Store) :
    canonSeq posOf (b :: bs) st = canonSeq posOf bs (canonStep posOf b st) := rfl

theorem canonSeq_temp (posOf : PosOf) (bs : List (Nat × Nat)) (st : Store) (h p : Nat) :
    (canonSeq posOf bs st).temp h p =
      if ∃ b ∈ bs, h = b.1 ∧ p ∈ posOf b.2 then none else st.temp h p := by
  induction bs generalizing st with
  | nil => simp [canonSeq]
  | cons b bs ih =>
    rw [canonSeq_cons, ih]
    by_cases h1 : ∃ b' ∈ bs, h = b'.1 ∧ p ∈ posOf b'.2
    · simp [h1]
    · by_cases h2 : h = b.1 ∧ p ∈ posOf b.2 <;> simp [h1, h2, canonStep_temp]

theorem canonSeq_canon (posOf : PosOf) (bs : List (Nat × Nat)) (st : Store) (p : Nat)
    (hnd : (bs.map Prod.fst).Nodup) :
    (canonSeq posOf bs st).canon p =
      bs.foldl (fun acc b => if p ∈ posOf b.2 then Option.or (st.temp b.1 p) acc else acc)
        (st.canon p) := by
  induction bs generalizing st with
  | nil => rfl
  | cons b bs ih =>
    rw [canonSeq_cons, List.foldl_cons]
    rw [List.map_cons] at hnd
    have hb1 : b.1 ∉ bs.map Prod.fst := (List.nodup_cons.mp hnd).1
    rw [ih _ (List.nodup_cons.mp hnd).2, canonStep_canon]
    apply foldl_congr_mem
    intro b' hb' acc
    have hne : b'.1 ≠ b.1 := fun hEq => hb1 (hEq ▸ List.mem_map_of_mem Prod.fst hb')
    have ht : (canonStep posOf b st).temp b'.1 p = st.temp b'.1 p := by
      rw [canonStep_temp, if_neg (fun hcon => hne hcon.1)]
    rw [ht]

theorem canonSeq_cursor_getLast (posOf : PosOf) (bs : List (Nat × Nat)) (st : Store)
    (b : Nat × Nat) :
    (canonSeq posOf (bs ++ [b]) st).cursor = some b.2 := by
  induction bs generalizing st with
  | nil => rfl
  | cons c bs ih =>
    rw [List.cons_append, canonSeq_cons]
    exact ih _

/-- The canonical-chain blocks with heights from `lo` to `m` (as hash-height
pairs, generated by the chain-hash function), in ascending height order. -/
def chainSeg (ch : Nat → Nat) (lo m : Nat) : List (Nat × Nat) :=
  (List.range' lo (m + 1 - lo)).map (fun k => (ch k, k))

theorem mem_chainSeg (ch : Nat → Nat) (lo m : Nat) (b : Nat × Nat) :
    b ∈ chainSeg ch lo m ↔ ∃ k, lo ≤ k ∧ k ≤ m ∧ b = (ch k, k) := by
  unfold chainSeg
  rw [List.mem_map]
  constructor
  · rintro ⟨k, hk, rfl⟩
    rw [List.mem_range'_1] at hk
    exact ⟨k, hk.1, by omega, rfl⟩
  · rintro ⟨k, hk1, hk2, rfl⟩
    exact ⟨k, List.mem_range'_1.mpr ⟨hk1, by omega⟩, rfl⟩

theorem chainSeg_fst_nodup (ch : Nat → Nat) (maxH lo m : Nat) (hm : m ≤ maxH)
    (hinj : ∀ i, i ≤ maxH → ∀ j, j ≤ maxH → ch i = ch j → i = j) :
    ((chainSeg ch lo m).map Prod.fst).Nodup := by
  unfold chainSeg
  rw [List.map_map]
  have hcomp : (Prod.fst ∘ fun k => ((ch k, k) : Nat × Nat)) = ch := rfl
  rw [hcomp]
  apply List.Nodup.map_on
  · intro x hx y hy hxy
    rw [List.mem_range'_1] at hx hy
    exact hinj x (by omega) y (by omega) hxy
  · exact List.nodup_range' _ _

theorem chainSeg_append (ch : Nat → Nat) (lo h1 h2 : Nat) (hlo : lo ≤ h1 + 1)
    (h12 : h1 ≤ h2) :
    chainSeg ch lo h1 ++ chainSeg ch (h1 + 1) h2 = chainSeg ch lo h2 := by
  unfold chainSeg
  rw [← List.map_append]
  congr 1
  have e1 : List.range' (h1 + 1) (h2 + 1 - (h1 + 1)) =
      List.range' (lo + (h1 + 1 - lo)) (h2 - h1) := by
    rw [show lo + (h1 + 1 - lo) = h1 + 1 from by omega,
      show h2 + 1 - (h1 + 1) = h2 - h1 from by omega]
  rw [e1, List.range'_append_1]
  congr 1
  omega

theorem walkBack_succ (lookup : Lookup) (fuel hash lo : Nat) :
    walkBack lookup (fuel + 1) hash lo =
      match lookup hash with
      | none => none
      | some hdr =>
        if hdr.height < lo then some []
        else
          match walkBack lookup fuel hdr.parent lo with
          | none => none
          | some l => some (l ++ [(hash, hdr.height)]) := rfl

theorem walkBack_chain (ch : Nat → Nat) (lookup : Lookup) (maxH : Nat)
    (hlk : ∀ k, k ≤ maxH → lookup (ch k) = some ⟨ch (k - 1), k⟩) :
    ∀ fuel m lo, 1 ≤ lo → m ≤ maxH → m + 2 - lo ≤ fuel →
      walkBack lookup fuel (ch m) lo = some (chainSeg ch lo m) := by
  intro fuel
  induction fuel with
  | zero =>
    intro m lo hlo hm hfuel
    show some [] = some (chainSeg ch lo m)
    unfold chainSeg
    rw [show m + 1 - lo = 0 from by omega]
    rfl
  | succ fuel ih =>
    intro m lo hlo hm hfuel
    rw [walkBack_succ]
    split
    next heq => rw [hlk m hm] at heq; cases heq
    next hdr heq =>
      rw [hlk m hm] at heq
      injection heq with h
      have hp : hdr.parent = ch (m - 1) := by rw [← h]
      have hh : hdr.height = m := by rw [← h]
      rw [hp, hh]
      by_cases hlt : m < lo
      · rw [if_pos hlt]
        unfold chainSeg
        rw [show m + 1 - lo = 0 from by omega]
        rfl
      · rw [if_neg hlt]
        have hrec := ih (m - 1) lo hlo (by omega) (by omega)
        rw [hrec]
        show some (chainSeg ch lo (m - 1) ++ [(ch m, m)]) = some (chainSeg ch lo m)
        congr 1
        unfold chainSeg
        rw [show (m - 1) + 1 - lo = m - lo from by omega,
          show m + 1 - lo = (m - lo) + 1 from by omega,
          List.range'_1_concat, List.map_append,
          show lo + (m - lo) = m from by omega]
        rfl

theorem catch_up_chain (ch : Nat → Nat) (lookup : Lookup) (posOf : PosOf)
    (maxH fa h : Nat) (S : List StaleBlock) (st : Store) (hfa : 1 ≤ fa)
    (hlk : ∀ k, k ≤ maxH → lookup (ch k) = some ⟨ch (k - 1), k⟩) (hm : h ≤ maxH) :
    canonicalize_catch_up lookup posOf fa ⟨ch h, h, S⟩ st =
      canonSeq posOf (chainSeg ch (max fa (cursorVal fa st + 1)) h) st := by
  have hlo : 1 ≤ max fa (cursorVal fa st + 1) := Nat.le_trans hfa (Nat.le_max_left _ _)
  unfold canonicalize_catch_up
  dsimp only
  rw [walkBack_chain ch lookup maxH hlk (h + 1) h _ hlo hm (by omega)]

set_option maxHeartbeats 1000000 in
theorem process_compose (ch : Nat → Nat) (lookup : Lookup) (posOf : PosOf)
    (maxH fa h1 h2 : Nat) (S1 S2 : List StaleBlock) (st : Store)
    (hfa : 1 ≤ fa)
    (hinj : ∀ i, i ≤ maxH → ∀ j, j ≤ maxH → ch i = ch j → i = j)
    (hlk : ∀ k, k ≤ maxH → lookup (ch k) = some ⟨ch (k - 1), k⟩)
    (hfah : fa ≤ h1) (hc : cursorVal fa st < h1) (h12 : h1 < h2) (hm : h2 ≤ maxH)
    (hS1 : ∀ s ∈ S1, ∀ k, k ≤ maxH → s.hash ≠ ch k) :
    processNotification lookup posOf fa ⟨ch h2, h2, S2⟩
        (processNotification lookup posOf fa ⟨ch h1, h1, S1⟩ st) =
      processNotification lookup posOf fa ⟨ch h2, h2, S1 ++ S2⟩ st := by
  have h1m : h1 ≤ maxH := by omega
  have hlo1h : max fa (cursorVal fa st + 1) ≤ h1 := Nat.max_le.mpr ⟨hfah, by omega⟩
  have hcu1 := catch_up_chain ch lookup posOf maxH fa h1 S1 st hfa hlk h1m
  have hcur1 : cursorVal fa (processNotification lookup posOf fa ⟨ch h1, h1, S1⟩ st) = h1 := by
    unfold processNotification cursorVal
    rw [cap_cursor, Option.getD_some]
  have hcu2 := catch_up_chain ch lookup posOf maxH fa h2 S2
    (processNotification lookup posOf fa ⟨ch h1, h1, S1⟩ st) hfa hlk hm
  rw [hcur1, show max fa (h1 + 1) = h1 + 1 from Nat.max_eq_right (by omega)] at hcu2
  have hcuR := catch_up_chain ch lookup posOf maxH fa h2 (S1 ++ S2) st hfa hlk hm
  have hst1 : processNotification lookup posOf fa ⟨ch h1, h1, S1⟩ st =
      canonicalize_and_prune posOf ⟨ch h1, h1, S1⟩
        (canonSeq posOf (chainSeg ch (max fa (cursorVal fa st + 1)) h1) st) := by
    unfold processNotification
    rw [hcu1]
  have hseg : chainSeg ch (max fa (cursorVal fa st + 1)) h1 ++ chainSeg ch (h1 + 1) h2 =
      chainSeg ch (max fa (cursorVal fa st + 1)) h2 :=
    chainSeg_append ch _ h1 h2 (by omega) (by omega)
  have hmem1 : ((ch h1, h1) : Nat × Nat) ∈ chainSeg ch (max fa (cursorVal fa st + 1)) h1 :=
    (mem_chainSeg _ _ _ _).mpr ⟨h1, hlo1h, Nat.le_refl _, rfl⟩
  have hmem2 : ((ch h2, h2) : Nat × Nat) ∈ chainSeg ch (h1 + 1) h2 :=
    (mem_chainSeg _ _ _ _).mpr ⟨h2, by omega, Nat.le_refl _, rfl⟩
  have hmemF : ((ch h2, h2) : Nat × Nat) ∈ chainSeg ch (max fa (cursorVal fa st + 1)) h2 :=
    (mem_chainSeg _ _ _ _).mpr ⟨h2, by omega, Nat.le_refl _, rfl⟩
  have hnd1 := chainSeg_fst_nodup ch maxH (max fa (cursorVal fa st + 1)) h1 h1m hinj
  have hnd2 := chainSeg_fst_nodup ch maxH (h1 + 1) h2 hm hinj
  have hndF := chainSeg_fst_nodup ch maxH (max fa (cursorVal fa st + 1)) h2 hm hinj
  have htemp1 : ∀ b ∈ chainSeg ch (h1 + 1) h2, ∀ p,
      (canonicalize_and_prune posOf ⟨ch h1, h1, S1⟩
        (canonSeq posOf (chainSeg ch (max fa (cursorVal fa st + 1)) h1) st)).temp b.1 p =
      st.temp b.1 p := by
    intro b hb p
    obtain ⟨k, hk1, hk2, rfl⟩ := (mem_chainSeg _ _ _ _).mp hb
    rw [cap_temp, canonSeq_temp]
    split_ifs with hcond1 hcond2
    · exfalso
      rcases hcond1 with ⟨hEq, _⟩ | ⟨s, hs, hEq, _⟩
      · have hk : k = h1 := hinj k (by omega) h1 (by omega) hEq
        omega
      · exact hS1 s hs k (by omega) hEq.symm
    · exfalso
      obtain ⟨b', hb', hEq, _⟩ := hcond2
      obtain ⟨k', hk1', hk2', rfl⟩ := (mem_chainSeg _ _ _ _).mp hb'
      have hk : k = k' := hinj k (by omega) k' (by omega) hEq
      omega
    · rfl
  have hacc : ∀ p, (canonicalize_and_prune posOf ⟨ch h1, h1, S1⟩
      (canonSeq posOf (chainSeg ch (max fa (cursorVal fa st + 1)) h1) st)).canon p =
      (canonSeq posOf (chainSeg ch (max fa (cursorVal fa st + 1)) h1) st).canon p := by
    intro p
    rw [cap_canon]
    dsimp only
    by_cases hp1 : p ∈ posOf h1
    · rw [if_pos hp1, canonSeq_temp, if_pos ⟨(ch h1, h1), hmem1, rfl, hp1⟩, option_or_none]
    · rw [if_neg hp1]
  have hstep : ∀ p, (canonSeq posOf (chainSeg ch (h1 + 1) h2)
      (canonicalize_and_prune posOf ⟨ch h1, h1, S1⟩
        (canonSeq posOf (chainSeg ch (max fa (cursorVal fa st + 1)) h1) st))).canon p =
      (canonSeq posOf (chainSeg ch (max fa (cursorVal fa st + 1)) h2) st).canon p := by
    intro p
    rw [canonSeq_canon _ _ _ _ hnd2, canonSeq_canon _ _ _ _ hndF, ← hseg, List.foldl_append]
    rw [hacc p, canonSeq_canon _ _ _ _ hnd1]
    apply foldl_congr_mem
    intro b hb acc
    rw [htemp1 b hb p]
  show canonicalize_and_prune posOf ⟨ch h2, h2, S2⟩
      (canonicalize_catch_up lookup posOf fa ⟨ch h2, h2, S2⟩
        (processNotification lookup posOf fa ⟨ch h1, h1, S1⟩ st)) =
    canonicalize_and_prune posOf ⟨ch h2, h2, S1 ++ S2⟩
      (canonicalize_catch_up lookup posOf fa ⟨ch h2, h2, S1 ++ S2⟩ st)
  rw [hcu2, hcuR, hst1]
  apply Store.ext
  · funext hh p
    rw [cap_temp, canonSeq_temp, cap_temp, canonSeq_temp, cap_temp, canonSeq_temp]
    rw [ite_ite_none, ite_ite_none, ite_ite_none, ite_ite_none]
    refine if_congr ?_ rfl rfl
    dsimp only
    rw [exists_mem_append, ← hseg, exists_mem_append]
    have hA1 : (hh = ch h1 ∧ p ∈ posOf h1) →
        ∃ b ∈ chainSeg ch (max fa (cursorVal fa st + 1)) h1, hh = b.1 ∧ p ∈ posOf b.2 :=
      fun hh1 => ⟨(ch h1, h1), hmem1, hh1.1, hh1.2⟩
    constructor
    · rintro ((((h | h) | h) | (h | h)) | h)
      · exact Or.inl (Or.inl h)
      · exact Or.inl (Or.inr (Or.inr h))
      · exact Or.inr (Or.inr h)
      · exact Or.inr (Or.inl (hA1 h))
      · exact Or.inl (Or.inr (Or.inl h))
      · exact Or.inr (Or.inl h)
    · rintro ((h | (h | h)) | (h | h))
      · exact Or.inl (Or.inl (Or.inl (Or.inl h)))
      · exact Or.inl (Or.inr (Or.inr h))
      · exact Or.inl (Or.inl (Or.inl (Or.inr h)))
      · exact Or.inr h
      · exact Or.inl (Or.inl (Or.inr h))
  · funext p
    rw [cap_canon, cap_canon]
    dsimp only
    by_cases hp2 : p ∈ posOf h2
    · rw [if_pos hp2, if_pos hp2]
      have hL : (canonSeq posOf (chainSeg ch (h1 + 1) h2)
          (canonicalize_and_prune posOf ⟨ch h1, h1, S1⟩
            (canonSeq posOf (chainSeg ch (max fa (cursorVal fa st + 1)) h1) st))).temp
            (ch h2) p = none := by
        rw [canonSeq_temp, if_pos ⟨(ch h2, h2), hmem2, rfl, hp2⟩]
      have hR : (canonSeq posOf (chainSeg ch (max fa (cursorVal fa st + 1)) h2) st).temp
          (ch h2) p = none := by
        rw [canonSeq_temp, if_pos ⟨(ch h2, h2), hmemF, rfl, hp2⟩]
      rw [hL, hR, option_or_none, option_or_none, hstep p]
    · rw [if_neg hp2, if_neg hp2, hstep p]
  · rw [cap_cursor, cap_cursor]

/-- Modelled from the spec: a stale (losing-fork) block is never a block of the
canonical chain, so its hash differs from every canonical chain hash. -/
def StaleFresh (ch : Nat → Nat) (maxH : Nat) (S : List StaleBlock) : Prop :=
  ∀ s ∈ S, ∀ k, k ≤ maxH → s.hash ≠ ch k

/-- Validity of a sequence of finality notifications along the canonical chain,
relative to the cursor value holding before the first of them: each notification
finalizes the canonical chain block at its height, heights are strictly
increasing, start above the cursor and at or above the activation height, stay
within the chain bound, and stale sets never mention canonical chain hashes. -/
def ValidChain (ch : Nat → Nat) (maxH fa : Nat) : List Notification → Nat → Prop
  | [], _ => True
  | n :: rest, c =>
    n.hash = ch n.height ∧ c < n.height ∧ fa ≤ n.height ∧ n.height ≤ maxH ∧
      StaleFresh ch maxH n.stale ∧ ValidChain ch maxH fa rest n.height

theorem validChain_getLast (ch : Nat → Nat) (maxH fa : Nat) :
    ∀ (ns : List Notification) (c : Nat) (hne : ns ≠ []), ValidChain ch maxH fa ns c →
      (ns.getLast hne).hash = ch (ns.getLast hne).height ∧ c < (ns.getLast hne).height ∧
        fa ≤ (ns.getLast hne).height ∧ (ns.getLast hne).height ≤ maxH
  | [], _, hne, _ => absurd rfl hne
  | [n], _, _, hv => ⟨hv.1, hv.2.1, hv.2.2.1, hv.2.2.2.1⟩
  | n :: m :: rest, c, _, hv => by
    have ih := validChain_getLast ch maxH fa (m :: rest) n.height
      (List.cons_ne_nil m rest) hv.2.2.2.2.2
    rw [List.getLast_cons (List.cons_ne_nil m rest)]
    exact ⟨ih.1, Nat.lt_trans hv.2.1 ih.2.1, ih.2.2.1, ih.2.2.2⟩

theorem catch_up_equiv_aux (ch : Nat → Nat) (lookup : Lookup) (posOf : PosOf)
    (maxH fa : Nat) (hfa : 1 ≤ fa)
    (hinj : ∀ i, i ≤ maxH → ∀ j, j ≤ maxH → ch i = ch j → i = j)
    (hlk : ∀ k, k ≤ maxH → lookup (ch k) = some ⟨ch (k - 1), k⟩) :
    ∀ (ns : List Notification) (st : Store) (hne : ns ≠ []),
      ValidChain ch maxH fa ns (cursorVal fa st) →
      ns.foldl (fun s n => processNotification lookup posOf fa n s) st =
        processNotification lookup posOf fa
          ⟨(ns.getLast hne).hash, (ns.getLast hne).height, allStales ns⟩ st
  | [], _, hne, _ => absurd rfl hne
  | [n], st, _, _ => by
    show processNotification lookup posOf fa n st =
      processNotification lookup posOf fa ⟨n.hash, n.height, n.stale ++ []⟩ st
    rw [List.append_nil]
  | n :: m :: rest, st, hne, hv => by
    obtain ⟨nh, nht, nS⟩ := n
    obtain ⟨hhash, hc, hfah, hm, hS, hv'⟩ := hv
    dsimp only at hhash hc hfah hm hS
    subst hhash
    have hne' : (m :: rest) ≠ [] := List.cons_ne_nil m rest
    have hcur1 : cursorVal fa
        (processNotification lookup posOf fa ⟨ch nht, nht, nS⟩ st) = nht := by
      unfold processNotification cursorVal
      rw [cap_cursor, Option.getD_some]
    have hlast := validChain_getLast ch maxH fa (m :: rest) nht hne' hv'
    have hrec := catch_up_equiv_aux ch lookup posOf maxH fa hfa hinj hlk (m :: rest)
      (processNotification lookup posOf fa ⟨ch nht, nht, nS⟩ st) hne'
      (by rw [hcur1]; exact hv')
    rw [List.foldl_cons]
    rw [hrec, List.getLast_cons hne',
      show allStales (⟨ch nht, nht, nS⟩ :: m :: rest) = nS ++ allStales (m :: rest) from rfl,
      hlast.1]
    exact process_compose ch lookup posOf maxH fa nht ((m :: rest).getLast hne').height
      nS (allStales (m :: rest)) st hfa hinj hlk hfah hc hlast.2.1 hlast.2.2.2 hS

/-- C4: for every chain of finality notifications N1..Nk along the canonical
chain (heights strictly increasing above the cursor, stale sets disjoint from
canonical chain hashes, ancestry lookup coherent with the chain, chain hashes
injective below the bound), processing them one by one yields exactly the same
final offchain store state as processing a single notification that jumps
directly from the pre-N1 state to Nk's block and carries the combined stale
information, with catch-up applying the per-block logic to the intermediate
blocks in ascending height order. -/
theorem catch_up_equivalence (ch : Nat → Nat) (lookup : Lookup) (posOf : PosOf)
    (maxH fa : Nat) (ns : List Notification) (st : Store) (hne : ns ≠ [])
    (hfa : 1 ≤ fa)
    (hinj : ∀ i, i ≤ maxH → ∀ j, j ≤ maxH → ch i = ch j → i = j)
    (hlk : ∀ k, k ≤ maxH → lookup (ch k) = some ⟨ch (k - 1), k⟩)
    (hv : ValidChain ch maxH fa ns (cursorVal fa st)) :
    ns.foldl (fun s n => processNotification lookup posOf fa n s) st =
      processNotification lookup posOf fa
        ⟨(ns.getLast hne).hash, (ns.getLast hne).height, allStales ns⟩ st :=
  catch_up_equiv_aux ch lookup posOf maxH fa hfa hinj hlk ns st hne hv

/-- Chain hashes for the C4 witness (spec Scenario B): block at height k has
hash 100 + k. -/
def chB : Nat → Nat := fun k => 100 + k

/-- Ancestry lookup for the C4 witness, coherent with `chB` up to height 6. -/
def lkB : Lookup := fun h =>
  if 100 ≤ h ∧ h ≤ 106 then some ⟨if h = 100 then 100 else h - 1, h - 100⟩ else none

/-- Node positions for the C4 witness: MMR active from height 4; heights 4, 5, 6
introduce positions [0], [1, 2], [3]. -/
def posOfB : PosOf := fun ht =>
  if ht = 4 then [0] else if ht = 5 then [1, 2] else if ht = 6 then [3] else []

/-- Store for the C4 witness: temporaries written by the importer for the blocks
at heights 4, 5, 6; empty ledger. -/
def stB : Store :=
  ⟨fun h p =>
      if h = 104 ∧ p = 0 then some 40
      else if h = 105 ∧ (p = 1 ∨ p = 2) then some 50
      else if h = 106 ∧ p = 3 then some 60 else none,
    fun _ => none, none⟩

/-- First notification of the C4 witness: finalize height 4. -/
def nB1 : Notification := ⟨104, 4, []⟩

/-- Second notification of the C4 witness: finalize height 5. -/
def nB2 : Notification := ⟨105, 5, []⟩

/-- Witness for C4 at the Scenario-B instance: finalizing heights 4 then 5 one
by one equals the single jump to height 5. -/
theorem catch_up_equivalence_witness :
    [nB1, nB2].foldl (fun s n => processNotification lkB posOfB 4 n s) stB =
      processNotification lkB posOfB 4 ⟨105, 5, []⟩ stB :=
  catch_up_equivalence chB lkB posOfB 6 4 [nB1, nB2] stB (List.cons_ne_nil _ _)
    (by decide) (by decide) (by decide)
    ⟨by decide, by decide, by decide, by decide,
      fun s hs => absurd hs (List.not_mem_nil s),
      by decide, by decide, by decide, by decide,
      fun s hs => absurd hs (List.not_mem_nil s), trivial⟩
